import Mathlib

/-!
Verification of `QEC-Analysis` (`src/model.py`) against its specification.

The Python module builds parity-check matrices for classical and
hypergraph-product quantum codes, analyses planar graph edge crossings, and
synthesises stim syndrome-extraction circuits for repetition and surface
codes.  Below, each Python function is shallowly embedded as an executable
Lean definition: numpy matrices become Mathlib matrices or lists of lists,
stim circuits become lists of instructions, Python exceptions become
`Except String`, float coordinates and noise parameters become exact
rationals.
-/

open Matrix
open Kronecker

/-! ## ParityCheckMatrixAlgebra: `hypergraph_pcm`

`hypergraph_pcm(H1, H2)` returns
`HX = [H1 ⊗ I_{n2} | I_{r1} ⊗ H2ᵀ]` and `HZ = [I_{n1} ⊗ H2 | H1ᵀ ⊗ I_{r2}]`,
concatenated along `axis=1`.  Column concatenation is modelled by
`Matrix.fromColumns` over the sum of the two column index types; numpy's
`np.kron` is `Matrix.kroneckerMap (· * ·)`, written `⊗ₖ`.  Entries are
integers (the Python code ends with `.astype(int)`). -/

def hypergraph_pcm_HX {r1 n1 r2 n2 : ℕ} (H1 : Matrix (Fin r1) (Fin n1) ℤ)
    (H2 : Matrix (Fin r2) (Fin n2) ℤ) :
    Matrix (Fin r1 × Fin n2) ((Fin n1 × Fin n2) ⊕ (Fin r1 × Fin r2)) ℤ :=
  Matrix.fromColumns (H1 ⊗ₖ (1 : Matrix (Fin n2) (Fin n2) ℤ))
    ((1 : Matrix (Fin r1) (Fin r1) ℤ) ⊗ₖ H2ᵀ)

def hypergraph_pcm_HZ {r1 n1 r2 n2 : ℕ} (H1 : Matrix (Fin r1) (Fin n1) ℤ)
    (H2 : Matrix (Fin r2) (Fin n2) ℤ) :
    Matrix (Fin n1 × Fin r2) ((Fin n1 × Fin n2) ⊕ (Fin r1 × Fin r2)) ℤ :=
  Matrix.fromColumns ((1 : Matrix (Fin n1) (Fin n1) ℤ) ⊗ₖ H2)
    (H1ᵀ ⊗ₖ (1 : Matrix (Fin r2) (Fin r2) ℤ))

lemma hypergraph_pcm_mul_transpose {r1 n1 r2 n2 : ℕ}
    (H1 : Matrix (Fin r1) (Fin n1) ℤ) (H2 : Matrix (Fin r2) (Fin n2) ℤ) :
    hypergraph_pcm_HX H1 H2 * (hypergraph_pcm_HZ H1 H2)ᵀ =
      2 • (H1 ⊗ₖ H2ᵀ) := by
  unfold hypergraph_pcm_HX hypergraph_pcm_HZ
  rw [transpose_fromColumns, fromColumns_mul_fromRows]
  rw [← kroneckerMap_transpose, ← kroneckerMap_transpose]
  rw [transpose_one, transpose_one, transpose_transpose]
  rw [← mul_kronecker_mul, ← mul_kronecker_mul]
  rw [Matrix.mul_one, Matrix.one_mul, Matrix.mul_one, Matrix.one_mul]
  rw [two_smul]

/-- C1: for all integer matrices `H1` (r1×n1) and `H2` (r2×n2) — in particular
for all binary ones — the pair `(HX, HZ)` returned by `hypergraph_pcm`
satisfies `HX·HZᵀ ≡ 0 (mod 2)` entrywise (CSS commutation law). -/
theorem hypergraph_pcm_css_commutation {r1 n1 r2 n2 : ℕ}
    (H1 : Matrix (Fin r1) (Fin n1) ℤ) (H2 : Matrix (Fin r2) (Fin n2) ℤ)
    (i : Fin r1 × Fin n2) (j : Fin n1 × Fin r2) :
    (hypergraph_pcm_HX H1 H2 * (hypergraph_pcm_HZ H1 H2)ᵀ) i j % 2 = 0 := by
  rw [hypergraph_pcm_mul_transpose]
  simp [Matrix.smul_apply]

/-! ## ParityCheckMatrixAlgebra: `classical_pcm`

A code description `clist` is a Python list whose entries are the strings
`"C"` and `"B"` or integers; we embed it as a list of `CTok`.  For each `"C"`
the code scans the following run of integer entries and sets those positions
of a zero row of length `num_bits = clist.count("B")` to 1 with numpy
indexing: `one_hot_vec[z] = 1` succeeds for `-num_bits ≤ z < num_bits`
(negative `z` wraps to `num_bits + z`) and raises `IndexError` otherwise.
Rows are `List ℕ` (the Python array holds 0/1 integers). -/

inductive CTok : Type
  | C : CTok
  | B : CTok
  | I : ℤ → CTok
deriving DecidableEq, Repr

/-- numpy assignment `one_hot_vec[z] = 1` on a vector of length `numBits`. -/
def npSetOne (numBits : ℕ) (vec : List ℕ) (z : ℤ) : Except String (List ℕ) :=
  if 0 ≤ z ∧ z < (numBits : ℤ) then .ok (vec.set z.toNat 1)
  else if -(numBits : ℤ) ≤ z ∧ z < 0 then .ok (vec.set (z + numBits).toNat 1)
  else .error "IndexError: index out of bounds"

/-- The run of integer entries at the head of the list, stopping at the first
string entry (the `while ... type(clist[peak_i]) != str` scan). -/
def leadingInts : List CTok → List ℤ
  | CTok.I z :: ts => z :: leadingInts ts
  | _ => []

/-- Perform the numpy assignments of one scan in order, propagating the
first `IndexError`. -/
def buildRowGo (numBits : ℕ) (vec : List ℕ) : List ℤ → Except String (List ℕ)
  | [] => .ok vec
  | z :: zs =>
      match npSetOne numBits vec z with
      | .ok v => buildRowGo numBits v zs
      | .error e => .error e

/-- Build one check row: start from `np.zeros(num_bits)` and perform the
numpy assignments in scan order. -/
def buildRow (numBits : ℕ) (run : List ℤ) : Except String (List ℕ) :=
  buildRowGo numBits (List.replicate numBits 0) run

/-- The rows contributed by each `"C"` entry of the description, in order;
the first numpy `IndexError` (if any) aborts the whole call. -/
def pcmRows (numBits : ℕ) : List CTok → Except String (List (List ℕ))
  | [] => .ok []
  | CTok.C :: ts =>
      match buildRow numBits (leadingInts ts) with
      | .error e => .error e
      | .ok r =>
          match pcmRows numBits ts with
          | .error e => .error e
          | .ok rest => .ok (r :: rest)
  | _ :: ts => pcmRows numBits ts

def classical_pcm (clist : List CTok) : Except String (List (List ℕ)) :=
  pcmRows (clist.count CTok.B) clist

/-- All connection indices of the description: the integers in the run
following each `"C"` entry (an integer can be counted by several checks,
exactly as the Python scan revisits it). -/
def connectionIndices : List CTok → List ℤ
  | [] => []
  | CTok.C :: ts => leadingInts ts ++ connectionIndices ts
  | _ :: ts => connectionIndices ts

/-- The connection-index runs of the description, one per `"C"` entry, in
the order the rows are produced (a `"C"` immediately followed by another
marker, or by the end of the list, contributes the empty run). -/
def checkRuns : List CTok → List (List ℤ)
  | [] => []
  | CTok.C :: ts => leadingInts ts :: checkRuns ts
  | _ :: ts => checkRuns ts

lemma npSetOne_isOk (numBits : ℕ) (vec : List ℕ) (z : ℤ) :
    (npSetOne numBits vec z).isOk = true ↔
      -(numBits : ℤ) ≤ z ∧ z < (numBits : ℤ) := by
  unfold npSetOne
  split_ifs with h1 h2 <;> simp [Except.isOk, Except.toBool] <;> omega

lemma npSetOne_ok_length (numBits : ℕ) (vec : List ℕ) (z : ℤ) (v : List ℕ)
    (h : npSetOne numBits vec z = .ok v) : v.length = vec.length := by
  unfold npSetOne at h
  split_ifs at h <;> simp only [Except.ok.injEq] at h <;>
    rw [← h, List.length_set]

lemma buildRowGo_isOk (numBits : ℕ) (run : List ℤ) :
    ∀ vec : List ℕ,
      (buildRowGo numBits vec run).isOk = true ↔
        ∀ z ∈ run, -(numBits : ℤ) ≤ z ∧ z < (numBits : ℤ) := by
  induction run with
  | nil => intro vec; simp [buildRowGo, Except.isOk, Except.toBool]
  | cons z zs ih =>
    intro vec
    rcases h : npSetOne numBits vec z with e | v
    · have hz : ¬(-(numBits : ℤ) ≤ z ∧ z < (numBits : ℤ)) := by
        rw [← npSetOne_isOk numBits vec z, h]; simp [Except.isOk, Except.toBool]
      rw [buildRowGo, h]
      constructor
      · intro hc; simp [Except.isOk, Except.toBool] at hc
      · intro hall; exact absurd (hall z (by simp)) hz
    · have hz : -(numBits : ℤ) ≤ z ∧ z < (numBits : ℤ) := by
        rw [← npSetOne_isOk numBits vec z, h]; simp [Except.isOk, Except.toBool]
      rw [buildRowGo, h, ih v]
      constructor
      · intro hall w hw
        rcases List.mem_cons.mp hw with rfl | hw'
        · exact hz
        · exact hall w hw'
      · intro hall w hw; exact hall w (List.mem_cons_of_mem _ hw)

lemma buildRow_isOk (numBits : ℕ) (run : List ℤ) :
    (buildRow numBits run).isOk = true ↔
      ∀ z ∈ run, -(numBits : ℤ) ≤ z ∧ z < (numBits : ℤ) :=
  buildRowGo_isOk numBits run _

lemma pcmRows_isOk (numBits : ℕ) (clist : List CTok) :
    (pcmRows numBits clist).isOk = true ↔
      ∀ z ∈ connectionIndices clist, -(numBits : ℤ) ≤ z ∧ z < (numBits : ℤ) := by
  induction clist with
  | nil => simp [pcmRows, connectionIndices, Except.isOk, Except.toBool]
  | cons t ts ih =>
    cases t with
    | C =>
      have hconn : connectionIndices (CTok.C :: ts) =
          leadingInts ts ++ connectionIndices ts := rfl
      rw [hconn]
      rcases hr : buildRow numBits (leadingInts ts) with e | row
      · have hrun : ¬∀ z ∈ leadingInts ts,
            -(numBits : ℤ) ≤ z ∧ z < (numBits : ℤ) := by
          rw [← buildRow_isOk numBits (leadingInts ts), hr]
          simp [Except.isOk, Except.toBool]
        rw [show pcmRows numBits (CTok.C :: ts) = .error e by
          simp [pcmRows, hr]]
        constructor
        · intro hc; simp [Except.isOk, Except.toBool] at hc
        · intro hall
          exact absurd (fun z hz => hall z (List.mem_append.mpr (Or.inl hz))) hrun
      · have hrun : ∀ z ∈ leadingInts ts,
            -(numBits : ℤ) ≤ z ∧ z < (numBits : ℤ) :=
          (buildRow_isOk numBits (leadingInts ts)).mp (by rw [hr]; rfl)
        rcases hrest : pcmRows numBits ts with e | rest
        · rw [show pcmRows numBits (CTok.C :: ts) = .error e by
            simp [pcmRows, hr, hrest]]
          constructor
          · intro hc; simp [Except.isOk, Except.toBool] at hc
          · intro hall
            have h2 : (pcmRows numBits ts).isOk = true :=
              ih.mpr (fun z hz => hall z (List.mem_append.mpr (Or.inr hz)))
            rw [hrest] at h2
            simp [Except.isOk, Except.toBool] at h2
        · rw [show pcmRows numBits (CTok.C :: ts) = .ok (row :: rest) by
            simp [pcmRows, hr, hrest]]
          have hts : ∀ z ∈ connectionIndices ts,
              -(numBits : ℤ) ≤ z ∧ z < (numBits : ℤ) :=
            ih.mp (by rw [hrest]; rfl)
          simp only [Except.isOk, Except.toBool, true_iff]
          intro z hz
          rcases List.mem_append.mp hz with hz' | hz'
          · exact hrun z hz'
          · exact hts z hz'
    | B =>
      simpa [pcmRows, connectionIndices] using ih
    | I z =>
      simpa [pcmRows, connectionIndices] using ih

/-- C4 (amended): `classical_pcm` succeeds iff every connection index `z`
satisfies `-num_bits ≤ z < num_bits`; an index in `[-num_bits, 0)` is
silently wrapped to `num_bits + z` (numpy semantics) rather than rejected,
and only indices outside `[-num_bits, num_bits)` raise the malformed-spec
(`IndexError`) failure. -/
theorem classical_pcm_isOk_iff (clist : List CTok) :
    (classical_pcm clist).isOk = true ↔
      ∀ z ∈ connectionIndices clist,
        -((clist.count CTok.B : ℕ) : ℤ) ≤ z ∧ z < ((clist.count CTok.B : ℕ) : ℤ) :=
  pcmRows_isOk _ clist

/-- C4 (counterexample): the description `["C", -1, "B"]` has the negative
connection index `-1`, outside the claimed legal range `[0, num_bits)`, yet
`classical_pcm` does not fail: numpy wraps `-1` to the last bit and the call
returns the matrix `[[1]]`. -/
theorem classical_pcm_negative_index_accepted :
    connectionIndices [CTok.C, CTok.I (-1), CTok.B] = [-1] ∧
    ¬(0 ≤ (-1 : ℤ)) ∧
    classical_pcm [CTok.C, CTok.I (-1), CTok.B] = Except.ok [[1]] := by
  refine ⟨rfl, by omega, rfl⟩

lemma npSetOne_ok_entries (numBits : ℕ) (vec : List ℕ) (z : ℤ) (v : List ℕ)
    (h : npSetOne numBits vec z = .ok v) (hvec : ∀ x ∈ vec, x = 0 ∨ x = 1) :
    ∀ x ∈ v, x = 0 ∨ x = 1 := by
  unfold npSetOne at h
  split_ifs at h <;> simp only [Except.ok.injEq] at h <;> subst h <;>
    intro x hx <;>
    rcases List.mem_or_eq_of_mem_set hx with hx' | rfl
  · exact hvec x hx'
  · exact Or.inr rfl
  · exact hvec x hx'
  · exact Or.inr rfl

lemma buildRowGo_ok_entries (numBits : ℕ) (run : List ℤ) :
    ∀ (vec v : List ℕ), buildRowGo numBits vec run = .ok v →
      (∀ x ∈ vec, x = 0 ∨ x = 1) → ∀ x ∈ v, x = 0 ∨ x = 1 := by
  induction run with
  | nil =>
    intro vec v h hvec
    simp only [buildRowGo, Except.ok.injEq] at h
    exact h ▸ hvec
  | cons z zs ih =>
    intro vec v h hvec
    rw [buildRowGo] at h
    rcases hs : npSetOne numBits vec z with e | v1 <;> rw [hs] at h
    · cases h
    · exact ih v1 v h (npSetOne_ok_entries numBits vec z v1 hs hvec)

lemma buildRow_ok_entries (numBits : ℕ) (run : List ℤ) (v : List ℕ)
    (h : buildRow numBits run = .ok v) : ∀ x ∈ v, x = 0 ∨ x = 1 :=
  buildRowGo_ok_entries numBits run _ v h (by
    intro x hx
    exact Or.inl (List.eq_of_mem_replicate hx))

lemma pcmRows_ok_shape (numBits : ℕ) (clist : List CTok) :
    ∀ H, pcmRows numBits clist = .ok H →
      H.length = clist.count CTok.C ∧ ∀ row ∈ H, ∀ x ∈ row, x = 0 ∨ x = 1 := by
  induction clist with
  | nil =>
    intro H h
    simp only [pcmRows, Except.ok.injEq] at h
    subst h
    simp
  | cons t ts ih =>
    intro H h
    cases t with
    | C =>
      rw [pcmRows] at h
      rcases hr : buildRow numBits (leadingInts ts) with e | row <;> rw [hr] at h
      · cases h
      · rcases hrest : pcmRows numBits ts with e | rest <;> rw [hrest] at h
        · cases h
        · simp only [Except.ok.injEq] at h
          subst h
          obtain ⟨hlen, hent⟩ := ih rest hrest
          refine ⟨?_, ?_⟩
          · simp [List.count_cons, hlen]
          · intro r hrm
            rcases List.mem_cons.mp hrm with rfl | hrm'
            · exact buildRow_ok_entries numBits (leadingInts ts) r hr
            · exact hent r hrm'
    | B =>
      obtain ⟨hlen, hent⟩ := ih H h
      refine ⟨?_, hent⟩
      rw [List.count_cons_of_ne (by intro hc; cases hc)]
      exact hlen
    | I z =>
      obtain ⟨hlen, hent⟩ := ih H h
      refine ⟨?_, hent⟩
      rw [List.count_cons_of_ne (by intro hc; cases hc)]
      exact hlen

/-- C7: whenever `classical_pcm` returns without error, the matrix has
exactly one row per `"C"` marker of the description and every entry is 0
or 1. -/
theorem classical_pcm_shape (clist : List CTok) (H : List (List ℕ))
    (h : classical_pcm clist = .ok H) :
    H.length = clist.count CTok.C ∧ ∀ row ∈ H, ∀ x ∈ row, x = 0 ∨ x = 1 :=
  pcmRows_ok_shape _ clist H h

/-- C7 (witness): on the description `["C", 0, "B"]` the call returns
`[[1]]`, which has one row for the one `"C"`, and its entry 1 is a 0/1
value. -/
theorem classical_pcm_shape_witness :
    ([[1]] : List (List ℕ)).length = [CTok.C, CTok.I 0, CTok.B].count CTok.C ∧
      ((1 : ℕ) = 0 ∨ (1 : ℕ) = 1) :=
  ⟨(classical_pcm_shape [CTok.C, CTok.I 0, CTok.B] [[1]] rfl).1,
   (classical_pcm_shape [CTok.C, CTok.I 0, CTok.B] [[1]] rfl).2
     [1] (by decide) 1 (by decide)⟩

lemma one_mem_set_of_mem (vec : List ℕ) (i : ℕ) (h : (1 : ℕ) ∈ vec) :
    (1 : ℕ) ∈ vec.set i 1 := by
  induction vec generalizing i with
  | nil => cases h
  | cons a as ihv =>
    cases i with
    | zero => exact List.mem_cons_self _ _
    | succ i =>
      rcases List.mem_cons.mp h with h' | h'
      · exact List.mem_cons.mpr (Or.inl h')
      · exact List.mem_cons.mpr (Or.inr (ihv i h'))

lemma one_mem_set_of_lt (vec : List ℕ) (i : ℕ) (h : i < vec.length) :
    (1 : ℕ) ∈ vec.set i 1 := by
  induction vec generalizing i with
  | nil => simp at h
  | cons a as ihv =>
    cases i with
    | zero => exact List.mem_cons_self _ _
    | succ i =>
      exact List.mem_cons.mpr (Or.inr (ihv i (by simpa using h)))

lemma npSetOne_ok_one_mem (numBits : ℕ) (vec : List ℕ) (z : ℤ) (v : List ℕ)
    (h : npSetOne numBits vec z = .ok v) (hlen : vec.length = numBits) :
    (1 : ℕ) ∈ v := by
  unfold npSetOne at h
  split_ifs at h with h1 h2 <;> simp only [Except.ok.injEq] at h <;> subst h
  · exact one_mem_set_of_lt vec _ (by rw [hlen]; omega)
  · exact one_mem_set_of_lt vec _ (by rw [hlen]; omega)

lemma buildRowGo_ok_one_mem (numBits : ℕ) (run : List ℤ) :
    ∀ (vec v : List ℕ), buildRowGo numBits vec run = .ok v →
      (1 : ℕ) ∈ vec → (1 : ℕ) ∈ v := by
  induction run with
  | nil =>
    intro vec v h hmem
    simp only [buildRowGo, Except.ok.injEq] at h
    exact h ▸ hmem
  | cons z zs ih =>
    intro vec v h hmem
    rw [buildRowGo] at h
    rcases hs : npSetOne numBits vec z with e | v1 <;> rw [hs] at h
    · cases h
    · refine ih v1 v h ?_
      unfold npSetOne at hs
      split_ifs at hs <;> simp only [Except.ok.injEq] at hs <;> subst hs <;>
        exact one_mem_set_of_mem vec _ hmem

lemma buildRow_ok_one_mem (numBits : ℕ) (run : List ℤ) (v : List ℕ)
    (h : buildRow numBits run = .ok v) (hrun : run ≠ []) : (1 : ℕ) ∈ v := by
  rcases run with _ | ⟨z, zs⟩
  · exact absurd rfl hrun
  · rw [buildRow, buildRowGo] at h
    rcases hs : npSetOne numBits (List.replicate numBits 0) z with e | v1 <;>
      rw [hs] at h
    · cases h
    · refine buildRowGo_ok_one_mem numBits zs v1 v h ?_
      exact npSetOne_ok_one_mem numBits _ z v1 hs (List.length_replicate _ _)


lemma checkRuns_length (clist : List CTok) :
    (checkRuns clist).length = clist.count CTok.C := by
  induction clist with
  | nil => rfl
  | cons t ts ih =>
    cases t with
    | C =>
      rw [checkRuns, List.length_cons, ih, List.count_cons_self]
    | B =>
      rw [show checkRuns (CTok.B :: ts) = checkRuns ts from rfl, ih,
        List.count_cons_of_ne (by intro hc; cases hc)]
    | I z =>
      rw [show checkRuns (CTok.I z :: ts) = checkRuns ts from rfl, ih,
        List.count_cons_of_ne (by intro hc; cases hc)]

lemma pcmRows_zip_runs (numBits : ℕ) (clist : List CTok) :
    ∀ H, pcmRows numBits clist = .ok H →
      ∀ pr ∈ H.zip (checkRuns clist),
        (pr.2 ≠ [] → (1 : ℕ) ∈ pr.1) ∧
        (pr.2 = [] → pr.1 = List.replicate numBits 0) := by
  induction clist with
  | nil =>
    intro H h pr hpr
    simp only [pcmRows, Except.ok.injEq] at h
    subst h
    cases hpr
  | cons t ts ih =>
    intro H h pr hpr
    cases t with
    | C =>
      rw [pcmRows] at h
      rcases hr : buildRow numBits (leadingInts ts) with e | row <;> rw [hr] at h
      · cases h
      · rcases hrest : pcmRows numBits ts with e | rest <;> rw [hrest] at h
        · cases h
        · simp only [Except.ok.injEq] at h
          subst h
          rw [show checkRuns (CTok.C :: ts) = leadingInts ts :: checkRuns ts
            from rfl, List.zip_cons_cons] at hpr
          rcases List.mem_cons.mp hpr with rfl | hpr'
          · constructor
            · intro hne
              exact buildRow_ok_one_mem numBits (leadingInts ts) row hr hne
            · intro hnil
              have hnil' : leadingInts ts = [] := hnil
              rw [hnil'] at hr
              simp only [buildRow, buildRowGo, Except.ok.injEq] at hr
              exact hr.symm
          · exact ih rest hrest pr hpr'
    | B => exact ih H h pr hpr
    | I z => exact ih H h pr hpr

/-- C5 (amended): when `classical_pcm` succeeds, pair each returned row with
its `"C"` marker's connection-index run (the zip covers every row, since
there are as many rows as runs): a row whose run is nonempty contains at
least one 1, and a row whose `"C"` is immediately followed by another marker
(or the end of the description) is the all-zero row. -/
theorem classical_pcm_rows_nonzero (clist : List CTok) (H : List (List ℕ))
    (h : classical_pcm clist = .ok H) :
    H.length = (checkRuns clist).length ∧
    ∀ pr ∈ H.zip (checkRuns clist),
      (pr.2 ≠ [] → (1 : ℕ) ∈ pr.1) ∧
      (pr.2 = [] → pr.1 = List.replicate (clist.count CTok.B) 0) :=
  ⟨by rw [(pcmRows_ok_shape _ clist H h).1, checkRuns_length],
   pcmRows_zip_runs _ clist H h⟩

/-- C5 (witness): on `["C", 0, "B", "C"]` the call returns `[[1], [0]]`; the
first check's run `[0]` is nonempty and its row `[1]` contains a 1, the
second check's run is empty and its row is the all-zero row `[0]`. -/
theorem classical_pcm_rows_nonzero_witness :
    (2 : ℕ) = 2 ∧ (1 : ℕ) ∈ ([1] : List ℕ) ∧ ([0] : List ℕ) = [0] :=
  ⟨(classical_pcm_rows_nonzero [CTok.C, CTok.I 0, CTok.B, CTok.C]
      [[1], [0]] rfl).1,
   ((classical_pcm_rows_nonzero [CTok.C, CTok.I 0, CTok.B, CTok.C]
      [[1], [0]] rfl).2 ([1], [0]) (by decide)).1 (by decide),
   ((classical_pcm_rows_nonzero [CTok.C, CTok.I 0, CTok.B, CTok.C]
      [[1], [0]] rfl).2 ([0], []) (by decide)).2 rfl⟩

/-- C5 (counterexample): the description `["C", "B"]` is accepted, but the
returned matrix `[[0]]` has a row with no 1 in it: a check touching no bits
produces an all-zero row, so not every row of a successfully returned matrix
contains a 1. -/
theorem classical_pcm_zero_row :
    classical_pcm [CTok.C, CTok.B] = Except.ok [[0]] ∧
    (1 : ℕ) ∉ ([0] : List ℕ) := by
  refine ⟨rfl, by decide⟩

/-! ## PlanarGraphIntersectionAnalyzer: `intersecting_edges`

Positions are points in the plane.  The Python code computes with floats;
here the coordinate type is any linearly ordered ring (the operations used —
subtraction, multiplication, comparison — are exact on the small integer
coordinates of the claims, so float arithmetic agrees with the ring
arithmetic there).  The adjacency matrix is a function of the two indices
together with its size `n`; an edge list entry `(i, j)` has `i < j` as in
the Python double loop.  Python's `set` of `frozenset`s of edge pairs
becomes a `Finset` of `Finset`s of edges; since `itertools.combinations`
produces each unordered pair of distinct edges exactly once, removing the
endpoint-sharing pairs before building the set is the same as the Python
code's remove-after-building. -/

def ccw {α : Type} [LinearOrderedRing α] (A B C : α × α) : Bool :=
  (C.2 - A.2) * (B.1 - A.1) > (B.2 - A.2) * (C.1 - A.1)

def do_lines_intersect {α : Type} [LinearOrderedRing α]
    (line1 line2 : (α × α) × (α × α)) : Bool :=
  (ccw line1.1 line2.1 line2.2 != ccw line1.2 line2.1 line2.2) &&
    (ccw line1.1 line1.2 line2.1 != ccw line1.1 line1.2 line2.2)

/-- The double loop `for i in range(n): for j in range(i+1, n)` collecting
pairs with `adjacency_matrix[i, j] == 1`. -/
def edgesOf (n : ℕ) (adj : ℕ → ℕ → ℕ) : List (ℕ × ℕ) :=
  (List.range n).flatMap fun i =>
    ((List.range' (i + 1) (n - (i + 1))).filter fun j => adj i j == 1).map
      fun j => (i, j)

/-- `itertools.combinations(edges, 2)`: all pairs in list order. -/
def pairsOf : List α → List (α × α)
  | [] => []
  | x :: xs => (xs.map fun y => (x, y)) ++ pairsOf xs

def intersecting_edges {α : Type} [LinearOrderedRing α] (n : ℕ)
    (adj : ℕ → ℕ → ℕ) (pos : ℕ → α × α) : Finset (Finset (ℕ × ℕ)) :=
  ((((pairsOf (edgesOf n adj)).filter fun p =>
        do_lines_intersect (pos p.1.1, pos p.1.2)
          (pos p.2.1, pos p.2.2)).filter fun p =>
      (({p.1.1, p.1.2} : Finset ℕ) ∩ {p.2.1, p.2.2}).card == 0).map fun p =>
    ({p.1, p.2} : Finset (ℕ × ℕ))).toFinset

/-- The convex unit square: vertices 0, 1, 2, 3 in cyclic order. -/
def quadPos : ℕ → ℤ × ℤ
  | 0 => (0, 0)
  | 1 => (1, 0)
  | 2 => (1, 1)
  | 3 => (0, 1)
  | _ => (0, 0)

/-- The 4-cycle 0-1-2-3-0 together with both diagonals 0-2 and 1-3. -/
def quadAdj (i j : ℕ) : ℕ :=
  if i = j then 0 else if i < 4 ∧ j < 4 then 1 else 0

/-- A star-shaped tree: center 0 joined to every other vertex. -/
def starAdj (i j : ℕ) : ℕ :=
  if i = 0 ∧ j ≠ 0 ∨ j = 0 ∧ i ≠ 0 then 1 else 0

lemma edgesOf_star_fst (n : ℕ) (e : ℕ × ℕ) (he : e ∈ edgesOf n starAdj) :
    e.1 = 0 := by
  unfold edgesOf at he
  rw [List.mem_flatMap] at he
  obtain ⟨i, _, hi⟩ := he
  rw [List.mem_map] at hi
  obtain ⟨j, hj, rfl⟩ := hi
  rw [List.mem_filter] at hj
  obtain ⟨hjr, hadj⟩ := hj
  rw [List.mem_range'] at hjr
  obtain ⟨k, _, rfl⟩ := hjr
  by_contra hne
  have : starAdj i (i + 1 + 1 * k) = 0 := by
    unfold starAdj
    rw [if_neg]
    push_neg
    exact ⟨fun h => absurd h hne, fun h => by omega⟩
  rw [this] at hadj
  simp at hadj

lemma pairsOf_mem {l : List α} {p : α × α} (hp : p ∈ pairsOf l) :
    p.1 ∈ l ∧ p.2 ∈ l := by
  induction l with
  | nil => cases hp
  | cons x xs ih =>
    rw [pairsOf, List.mem_append] at hp
    rcases hp with hp | hp
    · rw [List.mem_map] at hp
      obtain ⟨y, hy, rfl⟩ := hp
      exact ⟨List.mem_cons_self _ _, List.mem_cons_of_mem _ hy⟩
    · obtain ⟨h1, h2⟩ := ih hp
      exact ⟨List.mem_cons_of_mem _ h1, List.mem_cons_of_mem _ h2⟩

lemma intersecting_edges_star {α : Type} [LinearOrderedRing α] (n : ℕ)
    (pos : ℕ → α × α) : intersecting_edges n starAdj pos = ∅ := by
  unfold intersecting_edges
  rw [show ((pairsOf (edgesOf n starAdj)).filter fun p =>
        do_lines_intersect (pos p.1.1, pos p.1.2)
          (pos p.2.1, pos p.2.2)).filter
        (fun p =>
          (({p.1.1, p.1.2} : Finset ℕ) ∩ {p.2.1, p.2.2}).card == 0) = [] from ?_]
  · rfl
  rw [List.filter_eq_nil_iff]
  intro p hp
  rw [List.mem_filter] at hp
  obtain ⟨h1, h2⟩ := pairsOf_mem hp.1
  have e1 : p.1.1 = 0 := edgesOf_star_fst n p.1 h1
  have e2 : p.2.1 = 0 := edgesOf_star_fst n p.2 h2
  have h0 : (0 : ℕ) ∈ ({p.1.1, p.1.2} : Finset ℕ) ∩ {p.2.1, p.2.2} := by
    rw [Finset.mem_inter]
    constructor
    · rw [e1]; exact Finset.mem_insert_self _ _
    · rw [e2]; exact Finset.mem_insert_self _ _
  intro hc
  rw [beq_iff_eq, Finset.card_eq_zero] at hc
  rw [hc] at h0
  cases h0

lemma intersecting_edges_disjoint {α : Type} [LinearOrderedRing α] (n : ℕ)
    (adj : ℕ → ℕ → ℕ) (pos : ℕ → α × α) (s : Finset (ℕ × ℕ))
    (hs : s ∈ intersecting_edges n adj pos) :
    ∃ e1 e2 : ℕ × ℕ, s = {e1, e2} ∧
      ({e1.1, e1.2} : Finset ℕ) ∩ {e2.1, e2.2} = ∅ := by
  unfold intersecting_edges at hs
  rw [List.mem_toFinset, List.mem_map] at hs
  obtain ⟨p, hp, rfl⟩ := hs
  rw [List.mem_filter] at hp
  refine ⟨p.1, p.2, rfl, ?_⟩
  have := hp.2
  rw [beq_iff_eq, Finset.card_eq_zero] at this
  exact this

/-- C9: `intersecting_edges` (i) on the 4-cycle laid out as the convex unit
square with both diagonals returns exactly the single unordered pair of the
two diagonals, (ii) returns the empty set on a star-shaped tree under every
layout, and (iii) never returns a pair of edges sharing an endpoint. -/
theorem intersecting_edges_spec :
    intersecting_edges 4 quadAdj quadPos =
        {({(0, 2), (1, 3)} : Finset (ℕ × ℕ))} ∧
      (∀ (α : Type) (inst : LinearOrderedRing α) (n : ℕ) (pos : ℕ → α × α),
        intersecting_edges n starAdj pos = ∅) ∧
      ∀ (α : Type) (inst : LinearOrderedRing α) (n : ℕ) (adj : ℕ → ℕ → ℕ)
        (pos : ℕ → α × α) (s : Finset (ℕ × ℕ)),
        s ∈ intersecting_edges n adj pos →
          ∃ e1 e2 : ℕ × ℕ, s = {e1, e2} ∧
            ({e1.1, e1.2} : Finset ℕ) ∩ {e2.1, e2.2} = ∅ := by
  refine ⟨by decide, ?_, ?_⟩
  · intro α inst n pos
    exact intersecting_edges_star n pos
  · intro α inst n adj pos s hs
    exact intersecting_edges_disjoint n adj pos s hs

/-- C9 (witness): the diagonal pair returned for the square decomposes into
two endpoint-disjoint edges. -/
theorem intersecting_edges_spec_witness :
    ∃ e1 e2 : ℕ × ℕ,
      ({((0 : ℕ), (2 : ℕ)), ((1 : ℕ), (3 : ℕ))} : Finset (ℕ × ℕ)) = {e1, e2} ∧
      ({e1.1, e1.2} : Finset ℕ) ∩ {e2.1, e2.2} = ∅ :=
  intersecting_edges_spec.2.2 ℤ inferInstance 4 quadAdj quadPos
    {(0, 2), (1, 3)} (by decide)

/-! ## SyndromeCircuitBuilder: stim circuit model

A stim circuit is modelled as the list of its instructions; `circuit * n`
followed by `+=` is modelled by the unrolled instruction stream (the
`REPEAT` block's semantics).  Detector/observable arguments are the
`stim.target_rec` lookback offsets (negative integers); noise-channel
parameters are exact rationals standing for the Python floats.  A noise
attribute of `None` is an `Option.none` argument (the builders guard every
noise emission with `is not None`). -/

inductive Instr : Type
  | R : List ℕ → Instr
  | M : List ℕ → Instr
  | MR : List ℕ → Instr
  | CNOT : List ℕ → Instr
  | H : List ℕ → Instr
  | QUBIT_COORDS : ℕ → List ℕ → Instr
  | PAULI_CHANNEL_2 : List ℕ → List ℚ → Instr
  | PAULI_CHANNEL_1 : List ℕ → List ℚ → Instr
  | DETECTOR : List ℤ → Instr
  | OBSERVABLE_INCLUDE : List ℤ → ℕ → Instr
deriving DecidableEq, Repr

/-- Is the instruction a noise channel (`PAULI_CHANNEL_1/2`)?  (Exhaustive
match, so that each case is an unconditional equation.) -/
def Instr.isNoise : Instr → Bool
  | Instr.R _ => false
  | Instr.M _ => false
  | Instr.MR _ => false
  | Instr.CNOT _ => false
  | Instr.H _ => false
  | Instr.QUBIT_COORDS _ _ => false
  | Instr.PAULI_CHANNEL_2 _ _ => true
  | Instr.PAULI_CHANNEL_1 _ _ => true
  | Instr.DETECTOR _ => false
  | Instr.OBSERVABLE_INCLUDE _ _ => false

def Instr.isDetector : Instr → Bool
  | Instr.R _ => false
  | Instr.M _ => false
  | Instr.MR _ => false
  | Instr.CNOT _ => false
  | Instr.H _ => false
  | Instr.QUBIT_COORDS _ _ => false
  | Instr.PAULI_CHANNEL_2 _ _ => false
  | Instr.PAULI_CHANNEL_1 _ _ => false
  | Instr.DETECTOR _ => true
  | Instr.OBSERVABLE_INCLUDE _ _ => false

def Instr.isObservable : Instr → Bool
  | Instr.R _ => false
  | Instr.M _ => false
  | Instr.MR _ => false
  | Instr.CNOT _ => false
  | Instr.H _ => false
  | Instr.QUBIT_COORDS _ _ => false
  | Instr.PAULI_CHANNEL_2 _ _ => false
  | Instr.PAULI_CHANNEL_1 _ _ => false
  | Instr.DETECTOR _ => false
  | Instr.OBSERVABLE_INCLUDE _ _ => true

def Instr.isMeasureReset : Instr → Bool
  | Instr.R _ => false
  | Instr.M _ => false
  | Instr.MR _ => true
  | Instr.CNOT _ => false
  | Instr.H _ => false
  | Instr.QUBIT_COORDS _ _ => false
  | Instr.PAULI_CHANNEL_2 _ _ => false
  | Instr.PAULI_CHANNEL_1 _ _ => false
  | Instr.DETECTOR _ => false
  | Instr.OBSERVABLE_INCLUDE _ _ => false

/-- Qubit indices addressed by an instruction (detector and observable
instructions reference the measurement stream, not qubits). -/
def Instr.qubitTargets : Instr → List ℕ
  | Instr.R t => t
  | Instr.M t => t
  | Instr.MR t => t
  | Instr.CNOT t => t
  | Instr.H t => t
  | Instr.QUBIT_COORDS q _ => [q]
  | Instr.PAULI_CHANNEL_2 t _ => t
  | Instr.PAULI_CHANNEL_1 t _ => t
  | Instr.DETECTOR _ => []
  | Instr.OBSERVABLE_INCLUDE _ _ => []

/-- `__init__` normalization of a scalar 2-qubit-gate noise parameter:
`[noise / 15] * 15`. -/
def noise2_of_scalar (p : ℚ) : List ℚ := List.replicate 15 (p / 15)

/-- `__init__` normalization of a scalar 1-qubit noise parameter:
`[noise / 3] * 3`. -/
def noise1_of_scalar (p : ℚ) : List ℚ := List.replicate 3 (p / 3)

/-! ### Repetition code -/

/-- `np.arange(2*distance+1)[1::2]`: the odd indices `1, 3, …, 2d-1`
(Z-check qubits). -/
def repZChecks (distance : ℕ) : List ℕ :=
  (List.range distance).map fun i => 2 * i + 1

/-- `np.arange(2*distance+1)[::2]`: the even indices `0, 2, …, 2d`
(data qubits). -/
def repDataQubits (distance : ℕ) : List ℕ :=
  (List.range (distance + 1)).map fun i => 2 * i

/-- One syndrome-extraction round of `_repetition_code` (the local `circuit`
that is then repeated `rounds` times). -/
def repetitionRound (distance : ℕ)
    (noise_circuit noise_data noise_z_check : Option (List ℚ)) : List Instr :=
  ((repZChecks distance).flatMap fun m =>
    [Instr.CNOT [m - 1, m], Instr.CNOT [m + 1, m]] ++
      (match noise_circuit with
       | some p => [Instr.PAULI_CHANNEL_2 [m - 1, m] p,
                    Instr.PAULI_CHANNEL_2 [m + 1, m] p]
       | none => []))
  ++ (match noise_data with
      | some p => [Instr.PAULI_CHANNEL_1 (repDataQubits distance) p]
      | none => [])
  ++ (match noise_z_check with
      | some p => [Instr.PAULI_CHANNEL_1 (repZChecks distance) p]
      | none => [])
  ++ [Instr.MR (repZChecks distance)]
  ++ ((List.range (repZChecks distance).length).map fun k =>
      Instr.DETECTOR [-1 - (k : ℤ), -1 - (k : ℤ) - (distance : ℤ)])

/-- `_repetition_code`: initial dummy measurement, `rounds` repeated rounds,
final data measurement, boundary detectors, logical observable. -/
def repetition_code (distance rounds : ℕ)
    (noise_circuit noise_data noise_z_check : Option (List ℚ)) : List Instr :=
  [Instr.M (repZChecks distance)]
  ++ (List.replicate rounds
      (repetitionRound distance noise_circuit noise_data noise_z_check)).flatten
  ++ [Instr.M (repDataQubits distance)]
  ++ ((List.range (repZChecks distance).length).map fun k =>
      Instr.DETECTOR [-1 - (k : ℤ), -2 - (k : ℤ), -2 - (k : ℤ) - (distance : ℤ)])
  ++ [Instr.OBSERVABLE_INCLUDE [-1] 0]

/-- `StabilizerModel("repetition_code", distance=d, rounds=r)` with scalar
noise parameters: `__init__` normalizes each scalar into a full-length
channel-parameter list (never `None`) and calls `_repetition_code`. -/
def stabilizerModel_repetition (distance rounds : ℕ)
    (noise_circuit noise_data noise_z_check : ℚ) : List Instr :=
  repetition_code distance rounds (some (noise2_of_scalar noise_circuit))
    (some (noise1_of_scalar noise_data)) (some (noise1_of_scalar noise_z_check))

/-- C6: the repetition code at `distance=3, rounds=2` emits exactly
`3 × 2 + 3 = 9` detector instructions, and its logical-observable
declaration references exactly the single stream offset `-1`. -/
theorem repetition_d3_r2_nine_detectors :
    ((stabilizerModel_repetition 3 2 0 0 0).filter Instr.isDetector).length = 9 ∧
    (stabilizerModel_repetition 3 2 0 0 0).filter Instr.isObservable =
      [Instr.OBSERVABLE_INCLUDE [-1] 0] := by
  refine ⟨by rfl, by rfl⟩

/-- C2 (counterexample): building the repetition code with every noise
parameter set to 0 does NOT omit noise: `__init__` normalizes the scalar 0
into a full zero parameter vector (not `None`), so the builder emits
zero-probability `PAULI_CHANNEL` instructions — 4 of them already at
`distance=1, rounds=1` — where the claim demands none at all. -/
theorem zero_noise_channels_emitted :
    ((stabilizerModel_repetition 1 1 0 0 0).filter Instr.isNoise).length = 4 ∧
    ((repetition_code 1 1 none none none).filter Instr.isNoise).length = 0 := by
  refine ⟨by rfl, by rfl⟩

lemma mem_repZChecks_le {d q : ℕ} (h : q ∈ repZChecks d) : q + 1 ≤ 2 * d := by
  unfold repZChecks at h
  rw [List.mem_map] at h
  obtain ⟨i, hi, rfl⟩ := h
  rw [List.mem_range] at hi
  omega

lemma mem_repDataQubits_le {d q : ℕ} (h : q ∈ repDataQubits d) : q ≤ 2 * d := by
  unfold repDataQubits at h
  rw [List.mem_map] at h
  obtain ⟨i, hi, rfl⟩ := h
  rw [List.mem_range] at hi
  omega

lemma repetitionRound_targets_bounded (d : ℕ)
    (nc nd nz : Option (List ℚ)) (instr : Instr)
    (hin : instr ∈ repetitionRound d nc nd nz) :
    ∀ q ∈ instr.qubitTargets, q ≤ 2 * d := by
  intro q hq
  unfold repetitionRound at hin
  simp only [List.mem_append] at hin
  rcases hin with ((((hin | hin) | hin) | hin) | hin)
  · rw [List.mem_flatMap] at hin
    obtain ⟨m, hm, hin⟩ := hin
    have hmle := mem_repZChecks_le hm
    have hm1 : 1 ≤ m := by
      unfold repZChecks at hm
      rw [List.mem_map] at hm
      obtain ⟨i, _, rfl⟩ := hm
      omega
    rw [List.mem_append] at hin
    rcases hin with hin | hin
    · simp only [List.mem_cons, List.not_mem_nil, or_false] at hin
      rcases hin with rfl | rfl <;>
        · simp only [Instr.qubitTargets, List.mem_cons, List.not_mem_nil,
            or_false] at hq
          rcases hq with rfl | rfl <;> omega
    · rcases nc with _ | p
      · cases hin
      · simp only [List.mem_cons, List.not_mem_nil, or_false] at hin
        rcases hin with rfl | rfl <;>
          · simp only [Instr.qubitTargets, List.mem_cons, List.not_mem_nil,
              or_false] at hq
            rcases hq with rfl | rfl <;> omega
  · rcases nd with _ | p
    · cases hin
    · simp only [List.mem_cons, List.not_mem_nil, or_false] at hin
      subst hin
      simp only [Instr.qubitTargets] at hq
      exact mem_repDataQubits_le hq
  · rcases nz with _ | p
    · cases hin
    · simp only [List.mem_cons, List.not_mem_nil, or_false] at hin
      subst hin
      simp only [Instr.qubitTargets] at hq
      have := mem_repZChecks_le hq
      omega
  · simp only [List.mem_cons, List.not_mem_nil, or_false] at hin
    subst hin
    simp only [Instr.qubitTargets] at hq
    have := mem_repZChecks_le hq
    omega
  · rw [List.mem_map] at hin
    obtain ⟨k, _, rfl⟩ := hin
    simp [Instr.qubitTargets] at hq

/-- C10: for `distance ≥ 1` (any rounds, any noise configuration), every
qubit index addressed by any instruction the repetition-code builder emits
lies in `[0, 2*distance]`, the allocated `2d+1` qubit range. -/
theorem repetition_code_targets_bounded (d r : ℕ)
    (nc nd nz : Option (List ℚ)) (hd : 1 ≤ d) :
    ∀ instr ∈ repetition_code d r nc nd nz,
      ∀ q ∈ instr.qubitTargets, q ≤ 2 * d := by
  intro instr hin q hq
  unfold repetition_code at hin
  simp only [List.mem_append] at hin
  rcases hin with ((((hin | hin) | hin) | hin) | hin)
  · simp only [List.mem_cons, List.not_mem_nil, or_false] at hin
    subst hin
    simp only [Instr.qubitTargets] at hq
    have := mem_repZChecks_le hq
    omega
  · rw [List.mem_flatten] at hin
    obtain ⟨l, hl, hin⟩ := hin
    have := List.eq_of_mem_replicate hl
    subst this
    exact repetitionRound_targets_bounded d nc nd nz instr hin q hq
  · simp only [List.mem_cons, List.not_mem_nil, or_false] at hin
    subst hin
    simp only [Instr.qubitTargets] at hq
    exact mem_repDataQubits_le hq
  · rw [List.mem_map] at hin
    obtain ⟨k, _, rfl⟩ := hin
    simp [Instr.qubitTargets] at hq
  · simp only [List.mem_cons, List.not_mem_nil, or_false] at hin
    subst hin
    simp [Instr.qubitTargets] at hq

/-- C10 (witness): at `distance=3`, the first round's `CNOT [0, 1]` and the
boundary `CNOT [6, 5]` address qubits within `[0, 6]`. -/
theorem repetition_code_targets_bounded_witness :
    (1 : ℕ) ≤ 3 ∧ (5 : ℕ) ≤ 2 * 3 ∧ (6 : ℕ) ≤ 2 * 3 :=
  ⟨by decide,
   repetition_code_targets_bounded 3 2 none none none (by decide)
     (Instr.CNOT [4, 5]) (by decide) 5 (by decide),
   repetition_code_targets_bounded 3 2 none none none (by decide)
     (Instr.CNOT [6, 5]) (by decide) 6 (by decide)⟩

/-! ### Surface code

Role assignment from `__init__` (row-major over an `R × C` grid): data at
even-even and odd-odd `(row, col)`, Z-checks at even-odd, X-checks at
odd-even.  The round body `_surface_code` builds is translated cell by
cell. -/

def surfDataQubits (R C : ℕ) : List ℕ :=
  (List.range R).flatMap fun row =>
    ((List.range C).filter fun col =>
      (row % 2 == 0 && col % 2 == 0) || (row % 2 != 0 && col % 2 != 0)).map
      fun col => row * C + col

def surfZChecks (R C : ℕ) : List ℕ :=
  (List.range R).flatMap fun row =>
    ((List.range C).filter fun col => row % 2 == 0 && col % 2 != 0).map
      fun col => row * C + col

def surfXChecks (R C : ℕ) : List ℕ :=
  (List.range R).flatMap fun row =>
    ((List.range C).filter fun col => row % 2 != 0 && col % 2 == 0).map
      fun col => row * C + col

/-- The `QUBIT_COORDS` instructions appended while `__init__` walks the
grid. -/
def surfCoords (R C : ℕ) : List Instr :=
  (List.range R).flatMap fun row =>
    (List.range C).map fun col => Instr.QUBIT_COORDS (row * C + col) [row, col]

/-- The instructions one grid cell contributes to the round body: entangling
CNOTs (with lattice-boundary cases on the top/bottom row for Z-checks and the
left/right column for X-checks, the X-check sequence wrapped in Hadamards)
followed, when two-qubit noise is configured, by one `PAULI_CHANNEL_2` per
entangling pair. -/
def surfCell (R C row col : ℕ) (noise_circuit : Option (List ℚ)) :
    List Instr :=
  let curr := row * C + col
  if row % 2 = 0 ∧ col % 2 ≠ 0 then
    [Instr.CNOT [curr - 1, curr], Instr.CNOT [curr + 1, curr]]
    ++ (if row = 0 then [Instr.CNOT [curr + C, curr]]
        else if row = R - 1 then [Instr.CNOT [curr - C, curr]]
        else [Instr.CNOT [curr - C, curr], Instr.CNOT [curr + C, curr]])
    ++ (match noise_circuit with
        | some p =>
            [Instr.PAULI_CHANNEL_2 [curr - 1, curr] p,
             Instr.PAULI_CHANNEL_2 [curr + 1, curr] p]
            ++ (if row = 0 then [Instr.PAULI_CHANNEL_2 [curr + C, curr] p]
                else if row = R - 1 then
                  [Instr.PAULI_CHANNEL_2 [curr - C, curr] p]
                else [Instr.PAULI_CHANNEL_2 [curr - C, curr] p,
                      Instr.PAULI_CHANNEL_2 [curr + C, curr] p])
        | none => [])
  else if row % 2 ≠ 0 ∧ col % 2 = 0 then
    [Instr.H [curr], Instr.CNOT [curr - C, curr], Instr.CNOT [curr + C, curr]]
    ++ (if col = 0 then [Instr.CNOT [curr + 1, curr]]
        else if col = C - 1 then [Instr.CNOT [curr - 1, curr]]
        else [Instr.CNOT [curr - 1, curr], Instr.CNOT [curr + 1, curr]])
    ++ [Instr.H [curr]]
    ++ (match noise_circuit with
        | some p =>
            [Instr.PAULI_CHANNEL_2 [curr - C, curr] p,
             Instr.PAULI_CHANNEL_2 [curr + C, curr] p]
            ++ (if col = 0 then [Instr.PAULI_CHANNEL_2 [curr + 1, curr] p]
                else if col = C - 1 then
                  [Instr.PAULI_CHANNEL_2 [curr - 1, curr] p]
                else [Instr.PAULI_CHANNEL_2 [curr - 1, curr] p,
                      Instr.PAULI_CHANNEL_2 [curr + 1, curr] p])
        | none => [])
  else []

/-- The per-round one-qubit idle-noise instructions (each group only when
its configuration is present). -/
def surfQubitNoise (R C : ℕ)
    (noise_data noise_z_check noise_x_check : Option (List ℚ)) : List Instr :=
  (match noise_data with
   | some p => [Instr.PAULI_CHANNEL_1 (surfDataQubits R C) p]
   | none => [])
  ++ (match noise_z_check with
      | some p => [Instr.PAULI_CHANNEL_1 (surfZChecks R C) p]
      | none => [])
  ++ (match noise_x_check with
      | some p => [Instr.PAULI_CHANNEL_1 (surfXChecks R C) p]
      | none => [])

/-- The measurement/detector tail of the round body: `MR` on the Z-checks
always comes first; the subcode decides whether detectors precede
(`z_memory`) or follow (`x_memory`) the `MR` on the X-checks. -/
def surfRoundMeasure (R C : ℕ) (subcode : Option String) : List Instr :=
  [Instr.MR (surfZChecks R C)]
  ++ (if subcode = some "z_memory" then
        ((List.range (surfZChecks R C).length).map fun k =>
          Instr.DETECTOR [-1 - (k : ℤ),
            -1 - (k : ℤ) -
              (((surfXChecks R C).length + (surfZChecks R C).length : ℕ) : ℤ)])
        ++ [Instr.MR (surfXChecks R C)]
      else if subcode = some "x_memory" then
        [Instr.MR (surfXChecks R C)]
        ++ ((List.range (surfXChecks R C).length).map fun k =>
          Instr.DETECTOR [-1 - (k : ℤ),
            -1 - (k : ℤ) -
              (((surfXChecks R C).length + (surfZChecks R C).length : ℕ) : ℤ)])
      else [])

/-- One full round body of `_surface_code` (the local `circuit` repeated
`rounds` times). -/
def surfRound (R C : ℕ) (subcode : Option String)
    (noise_circuit noise_data noise_z_check noise_x_check : Option (List ℚ)) :
    List Instr :=
  ((List.range R).flatMap fun row =>
    (List.range C).flatMap fun col => surfCell R C row col noise_circuit)
  ++ surfQubitNoise R C noise_data noise_z_check noise_x_check
  ++ surfRoundMeasure R C subcode

/-- One `z_memory` final-detector loop iteration: update the `row`/`skip`
counters, then append the detector for check `k`. -/
def surfFinalStepZ (R ndz ndx lookb : ℕ) (st : ℕ × ℕ × List Instr)
    (k : ℕ) : ℕ × ℕ × List Instr :=
  let row := if k % ndx = 0 ∧ k ≠ 0 then st.1 + 2 else st.1
  let skip := if k % ndx = 0 ∧ k ≠ 0 then st.2.1 + ndz else st.2.1
  let base : List ℤ := [-1 - (k : ℤ) - (lookb : ℤ),
    -1 - (k : ℤ) - (skip : ℤ), -2 - (k : ℤ) - (skip : ℤ)]
  let recs :=
    if row = 0 then base ++ [-2 - (k : ℤ) - (skip : ℤ) - (ndx : ℤ)]
    else if row = R - 1 then
      base ++ [-1 - (k : ℤ) - (skip : ℤ) + (ndx : ℤ)]
    else base ++ [-1 - (k : ℤ) - (skip : ℤ) + (ndx : ℤ),
      -2 - (k : ℤ) - (skip : ℤ) - (ndx : ℤ)]
  (row, skip, st.2.2 ++ [Instr.DETECTOR recs])

/-- The end-of-circuit detectors for the `z_memory` subcode, with the
`row`/`skip` counters threaded through the loop. -/
def surfFinalDetsZ (R C : ℕ) : List Instr :=
  ((List.range (surfZChecks R C).length).foldl
    (surfFinalStepZ R (C / 2 + 1) (C / 2)
      ((surfDataQubits R C).length + (surfXChecks R C).length))
    (0, 0, [])).2.2

/-- One `x_memory` final-detector loop iteration: update the `skip` counter,
then append the detector for check `k`. -/
def surfFinalStepX (ndz ndx lookb : ℕ) (st : ℕ × List Instr)
    (k : ℕ) : ℕ × List Instr :=
  let skip := if k % ndz = 0 ∧ k ≠ 0 then st.1 + ndx else st.1
  let head : List ℤ :=
    if k % ndz = 0 then [-2 - (k : ℤ) - (skip : ℤ) - (ndx : ℤ)]
    else if k % ndz = ndz - 1 then [-1 - (k : ℤ) - (skip : ℤ) - (ndx : ℤ)]
    else [-2 - (k : ℤ) - (skip : ℤ) - (ndx : ℤ),
      -1 - (k : ℤ) - (skip : ℤ) - (ndx : ℤ)]
  let recs := head ++ [-1 - (k : ℤ) - (lookb : ℤ),
    -1 - (k : ℤ) - (skip : ℤ), -2 - (k : ℤ) - (skip : ℤ)]
  (skip, st.2 ++ [Instr.DETECTOR recs])

/-- The end-of-circuit detectors for the `x_memory` subcode, with the `skip`
counter threaded through the loop. -/
def surfFinalDetsX (R C : ℕ) : List Instr :=
  ((List.range (surfXChecks R C).length).foldl
    (surfFinalStepX (C / 2 + 1) (C / 2)
      ((surfDataQubits R C).length + (surfXChecks R C).length))
    (0, [])).2

/-- The logical-observable lookback offsets for each subcode. -/
def surfObservable (R C : ℕ) (subcode : Option String) : List ℤ :=
  let ndz := C / 2 + 1
  let ndx := C / 2
  if subcode = some "z_memory" then
    (List.range (R / 2 + 1)).map fun k =>
      -(k : ℤ) * ((ndz : ℤ) + (ndx : ℤ)) - (ndz : ℤ)
  else if subcode = some "x_memory" then
    (List.range ndz).map fun k => -1 - (k : ℤ)
  else []

/-- `_surface_code`: global reset, dummy measurement of all checks, `rounds`
repeated round bodies, final data measurement, subcode-dependent boundary
detectors and logical observable. -/
def surface_code_circuit (R C : ℕ) (subcode : Option String)
    (noise_circuit noise_data noise_z_check noise_x_check : Option (List ℚ))
    (rounds : ℕ) : List Instr :=
  [Instr.R (List.range (R * C)),
   Instr.M (surfZChecks R C ++ surfXChecks R C)]
  ++ (List.replicate rounds
      (surfRound R C subcode noise_circuit noise_data noise_z_check
        noise_x_check)).flatten
  ++ [Instr.M (surfDataQubits R C)]
  ++ (if subcode = some "z_memory" then surfFinalDetsZ R C
      else if subcode = some "x_memory" then surfFinalDetsX R C
      else [])
  ++ [Instr.OBSERVABLE_INCLUDE (surfObservable R C subcode) 0]

/-- `StabilizerModel("surface_code:<subcode>", scale=(R, C), rounds=r)` with
scalar noise parameters: `__init__` asserts both scale dimensions odd, emits
the `QUBIT_COORDS` instructions while assigning roles, normalizes the scalar
noise parameters, and calls `_surface_code`. -/
def stabilizerModel_surface (R C : ℕ) (subcode : Option String)
    (noise_circuit noise_data noise_z_check noise_x_check : ℚ)
    (rounds : ℕ) : Except String (List Instr) :=
  if R % 2 ≠ 0 ∧ C % 2 ≠ 0 then
    .ok (surfCoords R C
      ++ surface_code_circuit R C subcode
          (some (noise2_of_scalar noise_circuit))
          (some (noise1_of_scalar noise_data))
          (some (noise1_of_scalar noise_z_check))
          (some (noise1_of_scalar noise_x_check)) rounds)
  else .error "Scale of the surface code must be odd."

/-- C8: surface-code construction succeeds exactly when both scale
dimensions are odd; any even dimension trips the constructor's assertion
("Scale of the surface code must be odd"), and only odd×odd scales reach
role assignment and circuit synthesis. -/
theorem surface_code_odd_scale (R C : ℕ) (subcode : Option String)
    (nc nd nz nx : ℚ) (rounds : ℕ) :
    (stabilizerModel_surface R C subcode nc nd nz nx rounds).isOk = true ↔
      R % 2 = 1 ∧ C % 2 = 1 := by
  unfold stabilizerModel_surface
  split_ifs with h
  · simp only [Except.isOk, Except.toBool]
    constructor
    · intro _
      exact ⟨by omega, by omega⟩
    · intro _
      trivial
  · simp only [Except.isOk, Except.toBool]
    constructor
    · intro hc
      cases hc
    · intro hc
      exact absurd (by omega : R % 2 ≠ 0 ∧ C % 2 ≠ 0) h

lemma surfCell_all_quiet (R C row col : ℕ) (nc : Option (List ℚ)) :
    ∀ i ∈ surfCell R C row col nc,
      i.isMeasureReset = false ∧ i.isDetector = false := by
  intro i hi
  cases i <;>
    first
      | exact ⟨rfl, rfl⟩
      | (exfalso
         revert hi
         unfold surfCell
         rcases nc with _ | p <;> split_ifs <;> simp)

lemma surfQubitNoise_all_quiet (R C : ℕ)
    (nd nz nx : Option (List ℚ)) :
    ∀ i ∈ surfQubitNoise R C nd nz nx,
      i.isMeasureReset = false ∧ i.isDetector = false := by
  intro i hi
  cases i <;>
    first
      | exact ⟨rfl, rfl⟩
      | (exfalso
         revert hi
         unfold surfQubitNoise
         rcases nd with _ | p <;> rcases nz with _ | q <;>
           rcases nx with _ | w <;> simp)

lemma surfEntangle_all_quiet (R C : ℕ) (nc : Option (List ℚ)) :
    ∀ i ∈ ((List.range R).flatMap fun row =>
        (List.range C).flatMap fun col => surfCell R C row col nc),
      i.isMeasureReset = false ∧ i.isDetector = false := by
  intro i hi
  rw [List.mem_flatMap] at hi
  obtain ⟨row, _, hi⟩ := hi
  rw [List.mem_flatMap] at hi
  obtain ⟨col, _, hi⟩ := hi
  exact surfCell_all_quiet R C row col nc i hi

/-- C3 (amended): in every surface-code round the builder measures-and-resets
the Z-checks first; for `z_memory` it then emits one detector per Z-check
comparing offsets `-1-k` and `-1-k-(#X-checks + #Z-checks)` and only
afterwards measures-and-resets the X-checks, while for `x_memory` it
measures-and-resets the X-checks immediately after the Z-checks and emits
the per-X-check detectors (same offset pattern) after both measurements —
everything before the first measure-reset being entangling/noise
instructions only. -/
theorem surface_round_measure_order (R C : ℕ)
    (nc nd nz nx : Option (List ℚ)) :
    (∃ pre,
      surfRound R C (some "z_memory") nc nd nz nx =
        pre ++ [Instr.MR (surfZChecks R C)]
        ++ ((List.range (surfZChecks R C).length).map fun k =>
            Instr.DETECTOR [-1 - (k : ℤ),
              -1 - (k : ℤ) -
                (((surfXChecks R C).length + (surfZChecks R C).length : ℕ) : ℤ)])
        ++ [Instr.MR (surfXChecks R C)] ∧
      ∀ i ∈ pre, i.isMeasureReset = false ∧ i.isDetector = false) ∧
    (∃ pre,
      surfRound R C (some "x_memory") nc nd nz nx =
        pre ++ [Instr.MR (surfZChecks R C), Instr.MR (surfXChecks R C)]
        ++ ((List.range (surfXChecks R C).length).map fun k =>
            Instr.DETECTOR [-1 - (k : ℤ),
              -1 - (k : ℤ) -
                (((surfXChecks R C).length + (surfZChecks R C).length : ℕ) : ℤ)]) ∧
      ∀ i ∈ pre, i.isMeasureReset = false ∧ i.isDetector = false) := by
  constructor
  · refine ⟨((List.range R).flatMap fun row =>
        (List.range C).flatMap fun col => surfCell R C row col nc)
      ++ surfQubitNoise R C nd nz nx, ?_, ?_⟩
    · unfold surfRound surfRoundMeasure
      rw [if_pos rfl]
      simp [List.append_assoc]
    · intro i hi
      rw [List.mem_append] at hi
      rcases hi with hi | hi
      · exact surfEntangle_all_quiet R C nc i hi
      · exact surfQubitNoise_all_quiet R C nd nz nx i hi
  · refine ⟨((List.range R).flatMap fun row =>
        (List.range C).flatMap fun col => surfCell R C row col nc)
      ++ surfQubitNoise R C nd nz nx, ?_, ?_⟩
    · unfold surfRound surfRoundMeasure
      rw [if_neg (by decide), if_pos rfl]
      simp [List.append_assoc]
    · intro i hi
      rw [List.mem_append] at hi
      rcases hi with hi | hi
      · exact surfEntangle_all_quiet R C nc i hi
      · exact surfQubitNoise_all_quiet R C nd nz nx i hi

/-- C3 (counterexample): at scale `(3, 3)` the `x_memory` round body
measures-and-resets the Z-checks `[1, 7]` (the *inactive* basis) first, then
the X-checks `[3, 5]`, and only then emits the detectors — not, as claimed,
active basis first, detectors second, other basis last. -/
theorem surface_x_memory_round_order_counterexample :
    surfZChecks 3 3 = [1, 7] ∧
    surfXChecks 3 3 = [3, 5] ∧
    ((surfRound 3 3 (some "x_memory") none none none none).filter
      fun i => i.isMeasureReset || i.isDetector) =
      [Instr.MR [1, 7], Instr.MR [3, 5],
       Instr.DETECTOR [-1, -5], Instr.DETECTOR [-2, -6]] ∧
    [Instr.MR [1, 7], Instr.MR [3, 5],
       Instr.DETECTOR [-1, -5], Instr.DETECTOR [-2, -6]] ≠
      [Instr.MR [3, 5], Instr.DETECTOR [-1, -5], Instr.DETECTOR [-2, -6],
       Instr.MR [1, 7]] := by
  refine ⟨by rfl, by rfl, by rfl, by decide⟩

lemma filter_surfCell (R C row col : ℕ) (p : List ℚ) :
    (surfCell R C row col (some p)).filter (fun i => !i.isNoise) =
      surfCell R C row col none := by
  unfold surfCell
  split_ifs <;> simp [Instr.isNoise]

lemma filter_surfQubitNoise (R C : ℕ) (a b c : List ℚ) :
    (surfQubitNoise R C (some a) (some b) (some c)).filter
      (fun i => !i.isNoise) = surfQubitNoise R C none none none := by
  unfold surfQubitNoise
  simp [Instr.isNoise]

lemma filter_surfRoundMeasure (R C : ℕ) (sub : Option String) :
    (surfRoundMeasure R C sub).filter (fun i => !i.isNoise) =
      surfRoundMeasure R C sub := by
  rw [List.filter_eq_self]
  intro i hi
  cases i <;>
    first
      | rfl
      | (exfalso
         revert hi
         unfold surfRoundMeasure
         split_ifs <;> simp)

lemma filter_surfRound (R C : ℕ) (sub : Option String) (p a b c : List ℚ) :
    (surfRound R C sub (some p) (some a) (some b) (some c)).filter
      (fun i => !i.isNoise) = surfRound R C sub none none none none := by
  unfold surfRound
  rw [List.filter_append, List.filter_append]
  rw [filter_surfQubitNoise, filter_surfRoundMeasure]
  congr 2
  rw [List.filter_flatMap]
  refine List.flatMap_congr ?_
  intro row _
  rw [List.filter_flatMap]
  refine List.flatMap_congr ?_
  intro col _
  exact filter_surfCell R C row col p

lemma surfFinalStepZ_acc (R ndz ndx lookb : ℕ) (st : ℕ × ℕ × List Instr)
    (k : ℕ) :
    ∃ recs, (surfFinalStepZ R ndz ndx lookb st k).2.2 =
      st.2.2 ++ [Instr.DETECTOR recs] := by
  unfold surfFinalStepZ
  split_ifs <;> exact ⟨_, rfl⟩

lemma surfFinalStepX_acc (ndz ndx lookb : ℕ) (st : ℕ × List Instr) (k : ℕ) :
    ∃ recs, (surfFinalStepX ndz ndx lookb st k).2 =
      st.2 ++ [Instr.DETECTOR recs] := by
  unfold surfFinalStepX
  split_ifs <;> exact ⟨_, rfl⟩

lemma foldl_surfFinalStepZ_mem (R ndz ndx lookb : ℕ) (l : List ℕ) :
    ∀ (st : ℕ × ℕ × List Instr) (i : Instr),
      i ∈ (l.foldl (surfFinalStepZ R ndz ndx lookb) st).2.2 →
        i ∈ st.2.2 ∨ ∃ recs, i = Instr.DETECTOR recs := by
  induction l with
  | nil => intro st i hi; exact Or.inl hi
  | cons k ks ih =>
    intro st i hi
    rw [List.foldl_cons] at hi
    rcases ih (surfFinalStepZ R ndz ndx lookb st k) i hi with hi' | hi'
    · obtain ⟨recs, hrecs⟩ := surfFinalStepZ_acc R ndz ndx lookb st k
      rw [hrecs, List.mem_append] at hi'
      rcases hi' with hi' | hi'
      · exact Or.inl hi'
      · simp only [List.mem_cons, List.not_mem_nil, or_false] at hi'
        exact Or.inr ⟨recs, hi'⟩
    · exact Or.inr hi'

lemma foldl_surfFinalStepX_mem (ndz ndx lookb : ℕ) (l : List ℕ) :
    ∀ (st : ℕ × List Instr) (i : Instr),
      i ∈ (l.foldl (surfFinalStepX ndz ndx lookb) st).2 →
        i ∈ st.2 ∨ ∃ recs, i = Instr.DETECTOR recs := by
  induction l with
  | nil => intro st i hi; exact Or.inl hi
  | cons k ks ih =>
    intro st i hi
    rw [List.foldl_cons] at hi
    rcases ih (surfFinalStepX ndz ndx lookb st k) i hi with hi' | hi'
    · obtain ⟨recs, hrecs⟩ := surfFinalStepX_acc ndz ndx lookb st k
      rw [hrecs, List.mem_append] at hi'
      rcases hi' with hi' | hi'
      · exact Or.inl hi'
      · simp only [List.mem_cons, List.not_mem_nil, or_false] at hi'
        exact Or.inr ⟨recs, hi'⟩
    · exact Or.inr hi'

lemma filter_surfFinalDetsZ (R C : ℕ) :
    (surfFinalDetsZ R C).filter (fun i => !i.isNoise) = surfFinalDetsZ R C := by
  rw [List.filter_eq_self]
  intro i hi
  unfold surfFinalDetsZ at hi
  rcases foldl_surfFinalStepZ_mem _ _ _ _ _ _ i hi with hi' | ⟨recs, rfl⟩
  · cases hi'
  · rfl

lemma filter_surfFinalDetsX (R C : ℕ) :
    (surfFinalDetsX R C).filter (fun i => !i.isNoise) = surfFinalDetsX R C := by
  rw [List.filter_eq_self]
  intro i hi
  unfold surfFinalDetsX at hi
  rcases foldl_surfFinalStepX_mem _ _ _ _ _ i hi with hi' | ⟨recs, rfl⟩
  · cases hi'
  · rfl

lemma filter_surface_code_circuit (R C : ℕ) (sub : Option String)
    (p a b c : List ℚ) (rounds : ℕ) :
    (surface_code_circuit R C sub (some p) (some a) (some b) (some c)
      rounds).filter (fun i => !i.isNoise) =
      surface_code_circuit R C sub none none none none rounds := by
  unfold surface_code_circuit
  rw [List.filter_append, List.filter_append, List.filter_append,
    List.filter_append, List.filter_flatten, List.map_replicate,
    filter_surfRound]
  refine congrArg₂ _ (congrArg₂ _ (congrArg₂ _ (congrArg₂ _ rfl rfl) rfl) ?_)
    rfl
  split_ifs
  · exact filter_surfFinalDetsZ R C
  · exact filter_surfFinalDetsX R C
  · rfl

lemma filter_repetitionRound (d : ℕ) (p a b : List ℚ) :
    (repetitionRound d (some p) (some a) (some b)).filter
      (fun i => !i.isNoise) = repetitionRound d none none none := by
  unfold repetitionRound
  rw [List.filter_append, List.filter_append, List.filter_append,
    List.filter_append, List.filter_flatMap]
  refine congrArg₂ _ (congrArg₂ _ (congrArg₂ _ (congrArg₂ _ ?_ ?_) ?_) ?_) ?_
  · refine List.flatMap_congr ?_
    intro m _
    simp [Instr.isNoise]
  · simp [Instr.isNoise]
  · simp [Instr.isNoise]
  · simp [Instr.isNoise]
  · rw [List.filter_eq_self]
    intro i hi
    rw [List.mem_map] at hi
    obtain ⟨k, _, rfl⟩ := hi
    rfl

lemma filter_repetition_code (d r : ℕ) (p a b : List ℚ) :
    (repetition_code d r (some p) (some a) (some b)).filter
      (fun i => !i.isNoise) = repetition_code d r none none none := by
  unfold repetition_code
  rw [List.filter_append, List.filter_append, List.filter_append,
    List.filter_append, List.filter_flatten, List.map_replicate,
    filter_repetitionRound]
  refine congrArg₂ _ (congrArg₂ _ (congrArg₂ _ (congrArg₂ _ ?_ rfl) ?_) ?_) ?_
  · rfl
  · rfl
  · rw [List.filter_eq_self]
    intro i hi
    rw [List.mem_map] at hi
    obtain ⟨k, _, rfl⟩ := hi
    rfl
  · rfl

/-- C2 (amended): building with every noise parameter set to 0 emits the
same instruction sequence as building with every noise channel disabled
(`None` at each `is not None` guard), **plus** one zero-probability noise
channel at every noise site: deleting the noise-channel instructions from
the zero-noise build yields exactly the noise-disabled build, for the
repetition code and the surface code at all parameters.  (Zero noise is
zero-injected, not omitted.) -/
theorem zero_noise_build_filters_to_disabled_build :
    (∀ d r : ℕ,
      (stabilizerModel_repetition d r 0 0 0).filter (fun i => !i.isNoise) =
        repetition_code d r none none none) ∧
    ∀ (R C : ℕ) (subcode : Option String) (rounds : ℕ),
      (surface_code_circuit R C subcode (some (noise2_of_scalar 0))
        (some (noise1_of_scalar 0)) (some (noise1_of_scalar 0))
        (some (noise1_of_scalar 0)) rounds).filter (fun i => !i.isNoise) =
        surface_code_circuit R C subcode none none none none rounds := by
  constructor
  · intro d r
    exact filter_repetition_code d r _ _ _
  · intro R C subcode rounds
    exact filter_surface_code_circuit R C subcode _ _ _ _ rounds
